import Mathlib

set_option maxHeartbeats 1000000

-- ==========================================================================
-- Shallow embedding of typed-immutable-record (src/typed.factory.ts and
-- src/typed.record.ts).  The library manipulates plain JavaScript values,
-- immutable-js Records and immutable-js Lists; we model all of these with a
-- single inductive type of runtime values.  JavaScript numbers are modelled
-- as integers (no claim involves floating point); property tables are
-- insertion-ordered association lists, exactly like the own enumerable
-- properties of a JS object.
-- ==========================================================================

/-- JavaScript runtime values reachable in this library: plain JSON data
(null, booleans, numbers, strings, arrays, plain objects), the two
immutable-js collection kinds the library produces (`list` for
Immutable.List, `record` for Immutable.Record instances), and `undefined` for
the result of reading an absent property. -/
inductive Value where
  | null
  | undefined
  | bool (b : Bool)
  | num (n : Int)
  | str (s : String)
  | arr (elems : List Value)
  | obj (fields : List (String × Value))
  | list (elems : List Value)
  | record (fields : List (String × Value))

/-- Exceptions thrown by the JavaScript code: `typeError` models a runtime
TypeError (e.g. a property access on undefined or null), `jsError` models a
thrown `new Error(msg)` such as the missing-factory error on line 135 of
typed.factory.ts, and `stackOverflow` models exhaustion of the call stack
(used as the out-of-fuel result of the fuelled evaluator). -/
inductive JsError where
  | typeError (msg : String)
  | jsError (msg : String)
  | stackOverflow

/-- First-match lookup in an association list, i.e. reading a property of a
JS object (own property tables never actually contain duplicate keys). -/
def lookupKey {κ α : Type} [DecidableEq κ] (k : κ) : List (κ × α) → Option α
  | [] => none
  | p :: rest => if p.1 = k then some p.2 else lookupKey k rest

/-- JS property assignment `o[k] = v` on a property table: replaces the
binding if the key is present, appends it at the end otherwise (JS objects
preserve string-key insertion order). -/
def setField {α : Type} : List (String × α) → String → α → List (String × α)
  | [], k, v => [(k, v)]
  | p :: rest, k, v => if p.1 = k then (k, v) :: rest else p :: setField rest k v

/-- Index properties of a JS array (or string), as own enumerable keys:
element i is bound to the decimal string of i. -/
def indexFields (xs : List Value) : List (String × Value) :=
  xs.enum.map (fun p => (toString p.1, p.2))

/-- Own enumerable properties of a value, as copied by `R.merge({}, obj)`
(typed.factory.ts line 137) and as consumed by `Immutable.Map(values)`
inside the Record constructor: a plain object contributes its fields, an
array its index properties, a string its character index properties
(Object.keys('ab') = ['0','1']); null, undefined and primitives contribute
nothing.  Immutable Record and List internals are not modelled as own
enumerable data (no claim feeds an immutable collection back in as input). -/
def ownFields : Value → List (String × Value)
  | .obj fields => fields
  | .arr xs => indexFields xs
  | .str s => (s.toList.enum.map (fun p => (toString p.1, Value.str p.2.toString)))
  | _ => []

/-- The JS test `typeof v === 'object'`: true for null, plain objects,
arrays, and immutable-js collections; false for undefined and for the
boolean / number / string primitives. -/
def typeofObject : Value → Bool
  | .null | .obj _ | .arr _ | .list _ | .record _ => true
  | _ => false

/-- `Array.isArray(v)`: true exactly for plain JS arrays (an Immutable.List
is not a JS array). -/
def isArray : Value → Bool
  | .arr _ => true
  | _ => false

/-- JavaScript truthiness: null, undefined, false, 0 and the empty string
are falsy; every object (hence every array, List and Record) is truthy. -/
def truthy : Value → Bool
  | .null | .undefined => false
  | .bool b => b
  | .num n => n != 0
  | .str s => !s.isEmpty
  | _ => true

/-- The property read `v[k]`: throws a TypeError when `v` is null or
undefined, otherwise yields the property value or undefined when absent.
Array index properties are read by decimal index; other array properties
(such as length) are not modelled, no claim touches them. -/
def getProp (v : Value) (k : String) : Except JsError Value :=
  match v with
  | .null => .error (.typeError ("Cannot read properties of null (reading " ++ k ++ ")"))
  | .undefined => .error (.typeError ("Cannot read properties of undefined (reading " ++ k ++ ")"))
  | .obj fields => .ok ((lookupKey k fields).getD .undefined)
  | .arr xs =>
    .ok (match k.toNat? with
         | some i => (xs[i]?).getD .undefined
         | none => .undefined)
  | .record fields => .ok ((lookupKey k fields).getD .undefined)
  | _ => .ok .undefined

-- ==========================================================================
-- The Record factory (typed.factory.ts lines 38-77).  `Immutable.Record`
-- itself is an external collaborator (immutable-js); its documented
-- construction semantics are: the produced instance has exactly the
-- template's key set, each field holding the constructor argument's own
-- property of that name when present and the template's default otherwise
-- (top-level presence only), with a null/undefined argument yielding the
-- pure defaults.  The optional diagnostic record name only labels the
-- class and never affects the value, so it is not part of the model.
-- ==========================================================================

/-- Construction semantics of a `Record(template)` class from immutable-js
(external collaborator of this library): `new ImmutableRecord(val)`. -/
def recordCtor (template : List (String × Value)) (val : Value) : Value :=
  .record (template.map (fun kd => (kd.1, (lookupKey kd.1 (ownFields val)).getD kd.2)))

/-- The fields of a record value (its template key set, in template order). -/
def recFields : Value → List (String × Value)
  | .record fields => fields
  | _ => []

/-- typed.factory.ts lines 38-45: `makeTypedFactory(obj, name?)` builds the
Record class once and returns the factory `TypedFactory(val = null)`.  The
optional argument is modelled as an `Option Value` (`none` = called with no
argument, in which case the default parameter value null is used). -/
def makeTypedFactory (obj : Value) (_name : Option String) : Option Value → Value :=
  fun val => recordCtor (ownFields obj) (val.getD .null)

/-- typed.factory.ts lines 70-77: `recordify(defaultVal, val = null, name?)`
builds a factory and applies it once: `val ? TypedFactory(val) :
TypedFactory()`. -/
def recordify (defaultVal : Value) (val : Value) (name : Option String) : Value :=
  if truthy val then makeTypedFactory defaultVal name (some val)
  else makeTypedFactory defaultVal name none

-- ==========================================================================
-- The deep deserializer `fromJS` (typed.factory.ts lines 124-152).  The
-- factory registry maps a factory name to a descriptor (an optional table
-- from field name to nested factory name) and a factory.  The factories the
-- library itself produces are `makeTypedFactory` closures, so a registry
-- factory is modelled by its template (with `none` modelling a falsy
-- `factory` attribute, the case guarded by line 135).
-- ==========================================================================

/-- A `{descriptor, factory}` entry of the factory registry argument of
`fromJS` (typed.factory.ts lines 126-131). -/
structure FactoryEntry where
  descriptor : Option (List (String × String))
  factory : Option (List (String × Value))

/-- The factory registry (`facTree`): factory name to entry. -/
abbrev FacTree := List (String × FactoryEntry)

/-- Left-to-right effectful map, as `Array.prototype.map` over a callback
that can throw (typed.factory.ts line 144): the first exception aborts. -/
def mapExcept (f : Value → Except JsError Value) : List Value → Except JsError (List Value)
  | [] => .ok []
  | x :: xs =>
    match f x with
    | .error e => .error e
    | .ok r =>
      match mapExcept f xs with
      | .error e => .error e
      | .ok rs => .ok (r :: rs)

/-- One iteration of the descriptor loop (typed.factory.ts lines 141-149)
on working copy `acc`, for descriptor entry `kn` = (field key, nested
factory name): if `obj[key]` is an array, convert every element and assign
an Immutable.List of the results; else if `typeof obj[key] === 'object'`,
convert it and assign the result; else leave the working copy untouched.
`recf` is the recursive conversion being looped (`fromJS` itself). -/
def convertField (recf : Value → String → Except JsError Value) (objv : Value)
    (acc : List (String × Value)) (kn : String × String) :
    Except JsError (List (String × Value)) :=
  match getProp objv kn.1 with
  | .error e => .error e
  | .ok v =>
    match v with
    | .arr xs =>
      match mapExcept (fun e => recf e kn.2) xs with
      | .error e => .error e
      | .ok rs => .ok (setField acc kn.1 (.list rs))
    | _ =>
      if typeofObject v then
        match recf v kn.2 with
        | .error e => .error e
        | .ok r => .ok (setField acc kn.1 r)
      else .ok acc

/-- The full descriptor loop `for (const key in descriptor)`
(typed.factory.ts lines 141-149), over the descriptor's keys in insertion
order. -/
def convertFields (recf : Value → String → Except JsError Value) (objv : Value)
    (desc : List (String × String)) (acc : List (String × Value)) :
    Except JsError (List (String × Value)) :=
  match desc with
  | [] => .ok acc
  | kn :: rest =>
    match convertField recf objv acc kn with
    | .error e => .error e
    | .ok acc1 => convertFields recf objv rest acc1

/-- One unfolding of the body of `fromJS` (typed.factory.ts lines 124-152),
with `recf` standing for the recursive calls on lines 144 and 147:
line 134 reads `facTree[facName].factory` (a TypeError when the name is not
a registry key), line 135 throws the missing-factory error when the entry's
factory is falsy, line 137 makes the shallow working copy
`R.merge({}, obj)`, lines 140-150 run the descriptor loop, and line 151
applies the factory to the working copy. -/
def fromJSBody (recf : Value → String → Except JsError Value) (objv : Value)
    (facTree : FacTree) (facName : String) : Except JsError Value :=
  match lookupKey facName facTree with
  | none => .error (.typeError "Cannot read properties of undefined (reading factory)")
  | some entry =>
    match entry.factory with
    | none => .error (.jsError ("No factory found for " ++ facName))
    | some template =>
      let workingCopy := ownFields objv
      match entry.descriptor with
      | none => .ok (recordCtor template (.obj workingCopy))
      | some desc =>
        match convertFields recf objv desc workingCopy with
        | .error e => .error e
        | .ok flds => .ok (recordCtor template (.obj flds))

mutual
/-- Structural size of a value (every value has size at least 1, every
constituent of a value is strictly smaller). -/
def vsize : Value → Nat
  | .arr xs => 1 + vsizeList xs
  | .obj fs => 1 + vsizeFields fs
  | .list xs => 1 + vsizeList xs
  | .record fs => 1 + vsizeFields fs
  | _ => 1

/-- Sum of the sizes of a list of values. -/
def vsizeList : List Value → Nat
  | [] => 0
  | x :: xs => vsize x + vsizeList xs

/-- Sum of the sizes of the values of a property table. -/
def vsizeFields : List (String × Value) → Nat
  | [] => 0
  | p :: rest => vsize p.2 + vsizeFields rest
end

/-- Fuelled evaluator for `fromJS`: fuel bounds the recursion depth, and
running out of fuel is a stack overflow.  `fromJS_depth_bounded` below shows
that any fuel of at least `vsize obj` is enough, so the fuel is purely a
device to make the evaluator total and computable. -/
def fromJSFuel : Nat → Value → FacTree → String → Except JsError Value
  | 0, _, _, _ => .error .stackOverflow
  | fuel + 1, objv, facTree, facName =>
    fromJSBody (fun v n => fromJSFuel fuel v facTree n) objv facTree facName

/-- typed.factory.ts lines 124-152: `fromJS(obj, facTree, facName)`.
Defined through the fuelled evaluator with the always-sufficient fuel
`vsize obj`; the lemma `fromJS_eq` below shows it satisfies the literal
recursive equation of the source. -/
def fromJS (objv : Value) (facTree : FacTree) (facName : String) :
    Except JsError Value :=
  fromJSFuel (vsize objv) objv facTree facName

-- ==========================================================================
-- `TypedRecord.toJS` (typed.record.ts line 74), provided by immutable-js
-- (external collaborator): converts a record to a plain object and a List
-- to a plain array, recursing into values that are themselves immutable
-- collections; plain values (including nested plain objects and arrays) are
-- returned as they are.
-- ==========================================================================

mutual
/-- immutable-js `toJS` (the operation behind typed.record.ts line 74). -/
def toJS : Value → Value
  | .record fields => .obj (toJSFields fields)
  | .list xs => .arr (toJSList xs)
  | v => v

/-- `toJS` over the fields of a record. -/
def toJSFields : List (String × Value) → List (String × Value)
  | [] => []
  | p :: rest => (p.1, toJS p.2) :: toJSFields rest

/-- `toJS` over the elements of a List. -/
def toJSList : List Value → List Value
  | [] => []
  | x :: xs => toJS x :: toJSList xs
end

-- ==========================================================================
-- Notions used to state the round-trip property (claim C4): which values
-- are scalars, what shape a descriptor field must have, when a plain input
-- matches the registry's descriptor shape exactly, and JS deep equality of
-- plain nested data.
-- ==========================================================================

/-- A scalar plain value (in the sense of the spec's conversion algorithm):
null, a boolean, a number or a string. -/
def scalar : Value → Bool
  | .null | .bool _ | .num _ | .str _ => true
  | _ => false

/-- A plain object literal. -/
def isObjLit : Value → Bool
  | .obj _ => true
  | _ => false

/-- The shape required of the value of a descriptor field for an exactly
matching input: a nested plain object, or an array of plain objects. -/
def descShape : Option Value → Bool
  | some (.obj _) => true
  | some (.arr xs) => xs.all isObjLit
  | _ => false

/-- JavaScript deep equality of plain nested data: arrays are compared
pointwise in order, objects by key set and pointwise on the common keys
(key order is irrelevant, as for any JS deep-equality predicate), and
scalars by value. -/
inductive DeepEq : Value → Value → Prop where
  | null : DeepEq .null .null
  | bool (b : Bool) : DeepEq (.bool b) (.bool b)
  | num (n : Int) : DeepEq (.num n) (.num n)
  | str (s : String) : DeepEq (.str s) (.str s)
  | arr {xs ys : List Value} (hlen : xs.length = ys.length)
      (helem : ∀ (i : Nat) (h1 : i < xs.length) (h2 : i < ys.length),
        DeepEq xs[i] ys[i]) :
      DeepEq (.arr xs) (.arr ys)
  | obj {fs gs : List (String × Value)}
      (hkeys : ∀ k, (lookupKey k fs).isSome = (lookupKey k gs).isSome)
      (hvals : ∀ k v w, lookupKey k fs = some v → lookupKey k gs = some w →
        DeepEq v w) :
      DeepEq (.obj fs) (.obj gs)

/-- The input `obj` matches the registry's descriptor shape exactly at
factory `facName` (the hypothesis of the round-trip claim): the factory
resolves to a registered template, the input is a plain object whose key
set equals the template's key set, every descriptor field of the input
holds a nested object or an array of objects recursively matching the
descriptor's nested factory, and every other field holds a scalar. -/
inductive Matches (tree : FacTree) : String → Value → Prop where
  | mk (facName : String) (F : List (String × Value)) (entry : FactoryEntry)
      (T : List (String × Value)) (D : List (String × String))
      (hlook : lookupKey facName tree = some entry)
      (hfac : entry.factory = some T)
      (hdesc : entry.descriptor.getD [] = D)
      (hTnd : (T.map Prod.fst).Nodup)
      (hDnd : (D.map Prod.fst).Nodup)
      (hkeys1 : ∀ p ∈ F, p.1 ∈ T.map Prod.fst)
      (hkeys2 : ∀ p ∈ T, p.1 ∈ F.map Prod.fst)
      (hscal : ∀ p ∈ F, p.1 ∉ D.map Prod.fst → scalar p.2 = true)
      (hshape : ∀ kn ∈ D, descShape (lookupKey kn.1 F) = true)
      (hrec1 : ∀ kn ∈ D, ∀ G, lookupKey kn.1 F = some (.obj G) →
        Matches tree kn.2 (.obj G))
      (hrec2 : ∀ kn ∈ D, ∀ xs, lookupKey kn.1 F = some (.arr xs) →
        ∀ e ∈ xs, Matches tree kn.2 e) :
      Matches tree facName (.obj F)

-- ==========================================================================
-- Heap-instrumented model for the mutation claim (C7).  The pure model
-- above cannot express object identity, so for the claim that `fromJS`
-- never mutates its input we re-run the same source lines (typed.factory.ts
-- 124-152) over an explicit heap: plain objects and arrays — the mutable
-- JS values — live in heap cells addressed by naturals, while primitives
-- and the immutable record/List values are immediate.  The only writes the
-- source performs are `partialRecord[key] = ...` (lines 143 and 147), on
-- the working copy allocated by line 137.
-- ==========================================================================

/-- A heap-model runtime value: primitives and immutable collection values
are immediate, plain objects and arrays are references into the heap. -/
inductive HVal where
  | null
  | undefined
  | bool (b : Bool)
  | num (n : Int)
  | str (s : String)
  | ref (a : Nat)
  | record (fields : List (String × HVal))
  | ilist (elems : List HVal)

/-- A heap cell: a mutable plain object or a mutable array. -/
inductive HObj where
  | hobj (fields : List (String × HVal))
  | harr (elems : List HVal)

/-- The heap: address to cell. -/
abbrev Heap := List (Nat × HObj)

/-- A registry entry of the heap model (a factory is modelled by its
template, as in the pure model). -/
structure HFactoryEntry where
  descriptor : Option (List (String × String))
  factory : Option (List (String × HVal))

/-- The factory registry of the heap model. -/
abbrev HTree := List (String × HFactoryEntry)

/-- One more than the largest allocated address: the address JS object
allocation hands to the fresh working copy. -/
def freshAddr (h : Heap) : Nat :=
  (h.map Prod.fst).foldr (fun a m => max a m) 0 + 1

/-- Property write `cell[k] = v` on the heap cell at address `a` (the cell
is a plain object whenever the source writes, lines 143 and 147). -/
def heapSet : Heap → Nat → String → HVal → Heap
  | [], _, _, _ => []
  | (b, o) :: rest, a, k, v =>
    if b = a then
      (b, match o with
          | .hobj fs => HObj.hobj (setField fs k v)
          | o => o) :: rest
    else (b, o) :: heapSet rest a k v

/-- Heap-model property read `v[k]`. -/
def getPropH (h : Heap) (v : HVal) (k : String) : Except JsError HVal :=
  match v with
  | .null => .error (.typeError ("Cannot read properties of null (reading " ++ k ++ ")"))
  | .undefined => .error (.typeError ("Cannot read properties of undefined (reading " ++ k ++ ")"))
  | .ref a =>
    match lookupKey a h with
    | some (.hobj fs) => .ok ((lookupKey k fs).getD .undefined)
    | some (.harr xs) =>
      .ok (match k.toNat? with
           | some i => (xs[i]?).getD .undefined
           | none => .undefined)
    | none => .ok .undefined
  | .record fs => .ok ((lookupKey k fs).getD .undefined)
  | _ => .ok .undefined

/-- Heap-model own enumerable properties, for `R.merge({}, obj)` (line 137)
and `Map(values)` inside the Record constructor. -/
def ownFieldsH (h : Heap) (v : HVal) : List (String × HVal) :=
  match v with
  | .ref a =>
    match lookupKey a h with
    | some (.hobj fs) => fs
    | some (.harr xs) => xs.enum.map (fun p => (toString p.1, p.2))
    | none => []
  | _ => []

/-- `typeof v === 'object'` in the heap model. -/
def typeofObjectH : HVal → Bool
  | .null | .ref _ | .record _ | .ilist _ => true
  | _ => false

/-- `Array.isArray(v)` in the heap model: a reference to an array cell. -/
def isArrayH (h : Heap) : HVal → Bool
  | .ref a =>
    match lookupKey a h with
    | some (.harr _) => true
    | _ => false
  | _ => false

/-- Heap-model Record construction (immutable-js `new ImmutableRecord`,
reading the constructor argument's own properties once). -/
def recordCtorH (template valFields : List (String × HVal)) : HVal :=
  .record (template.map (fun kd => (kd.1, (lookupKey kd.1 valFields).getD kd.2)))

/-- Heap-model conversion of the elements of an array field (line 144),
threading the heap left to right; the first exception aborts. -/
def convertArrH (recf : Heap → HVal → String → Heap × Except JsError HVal)
    (h : Heap) (n : String) : List HVal → Heap × Except JsError (List HVal)
  | [] => (h, .ok [])
  | x :: xs =>
    match recf h x n with
    | (h1, .error e) => (h1, .error e)
    | (h1, .ok r) =>
      match convertArrH recf h1 n xs with
      | (h2, .error e) => (h2, .error e)
      | (h2, .ok rs) => (h2, .ok (r :: rs))

/-- Heap-model descriptor loop (lines 141-149): reads `obj[key]` off the
original input and writes only into the working-copy cell `pa`. -/
def convertFieldsH (recf : Heap → HVal → String → Heap × Except JsError HVal)
    (objv : HVal) (pa : Nat) :
    List (String × String) → Heap → Heap × Except JsError Unit
  | [], h => (h, .ok ())
  | kn :: rest, h =>
    match getPropH h objv kn.1 with
    | .error e => (h, .error e)
    | .ok v =>
      if isArrayH h v then
        match v with
        | .ref a =>
          match lookupKey a h with
          | some (.harr xs) =>
            match convertArrH recf h kn.2 xs with
            | (h1, .error e) => (h1, .error e)
            | (h1, .ok rs) =>
              convertFieldsH recf objv pa rest (heapSet h1 pa kn.1 (.ilist rs))
          -- unreachable: isArrayH holds only for a reference to an array cell
          | _ => (h, .error .stackOverflow)
        | _ => (h, .error .stackOverflow)
      else if typeofObjectH v then
        match recf h v kn.2 with
        | (h1, .error e) => (h1, .error e)
        | (h1, .ok r) => convertFieldsH recf objv pa rest (heapSet h1 pa kn.1 r)
      else convertFieldsH recf objv pa rest h

/-- Heap-instrumented `fromJS` (typed.factory.ts lines 124-152), fuelled as
the pure model is: resolve the factory (lines 134-135), allocate a fresh
cell holding the shallow working copy (line 137), run the descriptor loop
(lines 140-150), and apply the factory to the cell's final contents
(line 151), returning the final heap alongside the result. -/
def fromJSH : Nat → Heap → HVal → HTree → String → Heap × Except JsError HVal
  | 0, h, _, _, _ => (h, .error .stackOverflow)
  | fuel + 1, h, objv, facTree, facName =>
    match lookupKey facName facTree with
    | none => (h, .error (.typeError "Cannot read properties of undefined (reading factory)"))
    | some entry =>
      match entry.factory with
      | none => (h, .error (.jsError ("No factory found for " ++ facName)))
      | some template =>
        let pa := freshAddr h
        let h1 := (pa, HObj.hobj (ownFieldsH h objv)) :: h
        match entry.descriptor with
        | none => (h1, .ok (recordCtorH template (ownFieldsH h1 (.ref pa))))
        | some desc =>
          match convertFieldsH (fun h2 v n => fromJSH fuel h2 v facTree n) objv pa desc h1 with
          | (h2, .error e) => (h2, .error e)
          | (h2, .ok _) => (h2, .ok (recordCtorH template (ownFieldsH h2 (.ref pa))))

/-- Every cell of `h` survives unchanged into `h2`. -/
def HeapPreserves (h h2 : Heap) : Prop :=
  ∀ a o, lookupKey a h = some o → lookupKey a h2 = some o

/-- Every cell of `h` other than the one at `pa` survives unchanged into
`h2`. -/
def HeapPreservesExc (pa : Nat) (h h2 : Heap) : Prop :=
  ∀ a o, a ≠ pa → lookupKey a h = some o → lookupKey a h2 = some o

-- ==========================================================================
-- Basic lemmas about the embedding's building blocks.
-- ==========================================================================

theorem vsize_pos (v : Value) : 0 < vsize v := by
  cases v <;> simp [vsize]


theorem lookupKey_mem {κ α : Type} [DecidableEq κ] {k : κ} {l : List (κ × α)} {v : α}
    (h : lookupKey k l = some v) : (k, v) ∈ l := by
  induction l with
  | nil => simp [lookupKey] at h
  | cons p rest ih =>
    rcases p with ⟨k0, v0⟩
    by_cases hp : k0 = k
    · subst hp
      simp [lookupKey] at h
      subst h
      exact List.mem_cons_self _ _
    · simp [lookupKey, hp] at h
      exact List.mem_cons_of_mem _ (ih h)

theorem mem_vsizeFields {fs : List (String × Value)} {k : String} {v : Value}
    (h : (k, v) ∈ fs) : vsize v ≤ vsizeFields fs := by
  induction fs with
  | nil => simp at h
  | cons p rest ih =>
    rw [List.mem_cons] at h
    rcases h with h | h
    · have hv : v = p.2 := by rw [← h]
      subst hv
      simp only [vsizeFields]
      omega
    · have := ih h
      simp only [vsizeFields]
      omega

theorem mem_vsizeList {xs : List Value} {v : Value} (h : v ∈ xs) :
    vsize v ≤ vsizeList xs := by
  induction xs with
  | nil => simp at h
  | cons x rest ih =>
    rw [List.mem_cons] at h
    rcases h with h | h
    · subst h
      simp only [vsizeList]
      omega
    · have := ih h
      simp only [vsizeList]
      omega

theorem getElem?_vsize {xs : List Value} {i : Nat} {v : Value} (h : xs[i]? = some v) :
    vsize v ≤ vsizeList xs :=
  mem_vsizeList (List.getElem?_mem h)

/-- Any value reached by a property read that the descriptor loop recurses
into (an array or an object-typed value) is strictly smaller than the value
it was read from. -/
theorem getProp_vsize {o v : Value} {k : String}
    (h : getProp o k = .ok v) (hv : (isArray v || typeofObject v) = true) :
    vsize v < vsize o := by
  cases o with
  | null => simp [getProp] at h
  | undefined => simp [getProp] at h
  | bool b =>
    simp [getProp] at h
    subst h
    simp [isArray, typeofObject] at hv
  | num n =>
    simp [getProp] at h
    subst h
    simp [isArray, typeofObject] at hv
  | str s =>
    simp [getProp] at h
    subst h
    simp [isArray, typeofObject] at hv
  | list xs =>
    simp [getProp] at h
    subst h
    simp [isArray, typeofObject] at hv
  | obj fs =>
    simp [getProp] at h
    rcases hl : lookupKey k fs with _ | w
    · rw [hl] at h
      simp at h
      subst h
      simp [isArray, typeofObject] at hv
    · rw [hl] at h
      simp at h
      subst h
      have := mem_vsizeFields (lookupKey_mem hl)
      simp only [vsize]
      omega
  | record fs =>
    simp [getProp] at h
    rcases hl : lookupKey k fs with _ | w
    · rw [hl] at h
      simp at h
      subst h
      simp [isArray, typeofObject] at hv
    · rw [hl] at h
      simp at h
      subst h
      have := mem_vsizeFields (lookupKey_mem hl)
      simp only [vsize]
      omega
  | arr xs =>
    simp [getProp] at h
    rcases hn : k.toNat? with _ | i
    · rw [hn] at h
      simp at h
      subst h
      simp [isArray, typeofObject] at hv
    · rw [hn] at h
      simp only [] at h
      rcases hg : xs[i]? with _ | w
      · rw [hg] at h
        simp at h
        subst h
        simp [isArray, typeofObject] at hv
      · rw [hg] at h
        simp at h
        subst h
        have := getElem?_vsize hg
        simp only [vsize]
        omega

/-- An element of an array read off a value is strictly smaller than that
value. -/
theorem getProp_arr_elem_vsize {o : Value} {k : String} {xs : List Value} {e : Value}
    (h : getProp o k = .ok (.arr xs)) (he : e ∈ xs) : vsize e < vsize o := by
  have h1 : vsize (Value.arr xs) < vsize o :=
    getProp_vsize h (by simp [isArray])
  have h2 := mem_vsizeList he
  simp only [vsize] at h1
  omega

theorem mapExcept_congr {f g : Value → Except JsError Value} {xs : List Value}
    (h : ∀ x ∈ xs, f x = g x) : mapExcept f xs = mapExcept g xs := by
  induction xs with
  | nil => rfl
  | cons x rest ih =>
    simp only [mapExcept]
    rw [h x (List.mem_cons_self x rest), ih (fun y hy => h y (List.mem_cons_of_mem x hy))]

theorem convertField_congr {r₁ r₂ : Value → String → Except JsError Value}
    {objv : Value} {acc : List (String × Value)} {kn : String × String}
    (h : ∀ v n, vsize v < vsize objv → r₁ v n = r₂ v n) :
    convertField r₁ objv acc kn = convertField r₂ objv acc kn := by
  rcases hg : getProp objv kn.1 with e | v
  · simp only [convertField, hg]
  · cases v with
    | arr xs =>
      simp only [convertField, hg]
      rw [mapExcept_congr (fun e he => h e kn.2 (getProp_arr_elem_vsize hg he))]
    | null =>
      have hrw := h _ kn.2 (getProp_vsize hg (by simp [isArray, typeofObject]))
      simp [convertField, hg, typeofObject]
      rw [hrw]
    | obj fs =>
      have hrw := h _ kn.2 (getProp_vsize hg (by simp [isArray, typeofObject]))
      simp [convertField, hg, typeofObject]
      rw [hrw]
    | list xs =>
      have hrw := h _ kn.2 (getProp_vsize hg (by simp [isArray, typeofObject]))
      simp [convertField, hg, typeofObject]
      rw [hrw]
    | record fs =>
      have hrw := h _ kn.2 (getProp_vsize hg (by simp [isArray, typeofObject]))
      simp [convertField, hg, typeofObject]
      rw [hrw]
    | undefined => simp [convertField, hg, typeofObject]
    | bool b => simp [convertField, hg, typeofObject]
    | num n => simp [convertField, hg, typeofObject]
    | str s => simp [convertField, hg, typeofObject]

theorem convertFields_congr {r₁ r₂ : Value → String → Except JsError Value}
    {objv : Value} {desc : List (String × String)} {acc : List (String × Value)}
    (h : ∀ v n, vsize v < vsize objv → r₁ v n = r₂ v n) :
    convertFields r₁ objv desc acc = convertFields r₂ objv desc acc := by
  induction desc generalizing acc with
  | nil => rfl
  | cons kn rest ih =>
    simp only [convertFields]
    rw [convertField_congr h]
    rcases hcf : convertField r₂ objv acc kn with e | acc1
    · simp only [hcf]
    · simp only [hcf]
      exact ih

theorem fromJSBody_congr {r₁ r₂ : Value → String → Except JsError Value}
    {objv : Value} {facTree : FacTree} {facName : String}
    (h : ∀ v n, vsize v < vsize objv → r₁ v n = r₂ v n) :
    fromJSBody r₁ objv facTree facName = fromJSBody r₂ objv facTree facName := by
  rcases he : lookupKey facName facTree with _ | entry
  · simp only [fromJSBody, he]
  · rcases hf : entry.factory with _ | template
    · simp only [fromJSBody, he, hf]
    · rcases hd : entry.descriptor with _ | desc
      · simp only [fromJSBody, he, hf, hd]
      · simp only [fromJSBody, he, hf, hd]
        rw [convertFields_congr h]

/-- Fuel irrelevance: any fuel of at least the size of the input gives the
same result, so the recursion depth of `fromJS` is bounded by the input's
size regardless of the registry. -/
theorem fromJSFuel_agree :
    ∀ (f g : Nat) (objv : Value) (facTree : FacTree) (facName : String),
      vsize objv ≤ f → vsize objv ≤ g →
      fromJSFuel f objv facTree facName = fromJSFuel g objv facTree facName := by
  intro f
  induction f with
  | zero =>
    intro g objv facTree facName hf _
    have := vsize_pos objv
    omega
  | succ f ih =>
    intro g objv facTree facName hf hg
    cases g with
    | zero =>
      have := vsize_pos objv
      omega
    | succ g =>
      simp only [fromJSFuel]
      exact fromJSBody_congr (fun v n hv => by
        have h1 : vsize v ≤ f := by omega
        have h2 : vsize v ≤ g := by omega
        exact ih g v facTree n h1 h2)

/-- `fromJS` satisfies the literal recursive equation of
typed.factory.ts lines 124-152. -/
theorem fromJS_eq (objv : Value) (facTree : FacTree) (facName : String) :
    fromJS objv facTree facName =
      fromJSBody (fun v n => fromJS v facTree n) objv facTree facName := by
  show fromJSFuel (vsize objv) objv facTree facName = _
  have hpos := vsize_pos objv
  rcases hs : vsize objv with _ | s
  · omega
  · simp only [fromJSFuel]
    exact fromJSBody_congr (fun v n hv => by
      show fromJSFuel s v facTree n = fromJSFuel (vsize v) v facTree n
      rw [hs] at hv
      exact fromJSFuel_agree s (vsize v) v facTree n (by omega) (le_refl _))

-- ==========================================================================
-- Association-list lemmas for the working copy and record construction.
-- ==========================================================================

theorem lookupKey_setField_self {α : Type} {fs : List (String × α)} {k : String} {v : α} :
    lookupKey k (setField fs k v) = some v := by
  induction fs with
  | nil => simp [setField, lookupKey]
  | cons p rest ih =>
    by_cases hp : p.1 = k
    · simp [setField, hp, lookupKey]
    · simp [setField, hp, lookupKey, ih]

theorem lookupKey_setField_other {α : Type} {fs : List (String × α)} {k k' : String} {v : α}
    (h : k' ≠ k) : lookupKey k' (setField fs k v) = lookupKey k' fs := by
  have hkk : k ≠ k' := fun he => h he.symm
  induction fs with
  | nil => simp [setField, lookupKey, hkk]
  | cons p rest ih =>
    by_cases hp : p.1 = k
    · subst hp
      simp [setField, lookupKey, hkk]
    · have hsf : setField (p :: rest) k v = p :: setField rest k v := by
        simp [setField, hp]
      rw [hsf]
      by_cases hp' : p.1 = k'
      · simp [lookupKey, hp']
      · simp [lookupKey, hp', ih]

/-- Reading a field of a freshly constructed record: the template's entry
for that key, with the constructor argument's value substituted when
present. -/
theorem lookupKey_mapRecord {T P : List (String × Value)} {k : String} {d : Value}
    (hT : lookupKey k T = some d) :
    lookupKey k (T.map (fun kd => (kd.1, (lookupKey kd.1 P).getD kd.2))) =
      some ((lookupKey k P).getD d) := by
  induction T with
  | nil => simp [lookupKey] at hT
  | cons p rest ih =>
    by_cases hp : p.1 = k
    · subst hp
      simp only [lookupKey, if_pos rfl] at hT
      injection hT with hT
      subst hT
      simp [List.map_cons, lookupKey]
    · simp only [lookupKey, if_neg hp] at hT
      simp only [List.map_cons, lookupKey, if_neg hp]
      exact ih hT

theorem lookupKey_isSome_iff {α : Type} {l : List (String × α)} {k : String} :
    (lookupKey k l).isSome = true ↔ k ∈ l.map Prod.fst := by
  induction l with
  | nil => simp [lookupKey]
  | cons p rest ih =>
    by_cases hp : p.1 = k
    · subst hp
      simp [lookupKey]
    · simp only [lookupKey, if_neg hp, List.map_cons, List.mem_cons]
      rw [ih]
      constructor
      · exact fun hm => Or.inr hm
      · intro hm
        rcases hm with hm | hm
        · exact absurd hm.symm hp
        · exact hm

-- ==========================================================================
-- Inversion and construction lemmas for the descriptor loop.
-- ==========================================================================

/-- What a single successful iteration of the descriptor loop did: it either
replaced the field with an Immutable.List of recursively converted array
elements, replaced it with the recursive conversion of an object-typed
value, or (for a primitive or absent value) left the working copy alone. -/
theorem convertField_ok_cases {recf : Value → String → Except JsError Value}
    {objv : Value} {acc acc1 : List (String × Value)} {kn : String × String}
    (h : convertField recf objv acc kn = .ok acc1) :
    ∃ v, getProp objv kn.1 = .ok v ∧
      ((∃ xs rs, v = .arr xs ∧ mapExcept (fun e => recf e kn.2) xs = .ok rs ∧
          acc1 = setField acc kn.1 (.list rs)) ∨
       (isArray v = false ∧ typeofObject v = true ∧
          ∃ r, recf v kn.2 = .ok r ∧ acc1 = setField acc kn.1 r) ∨
       (isArray v = false ∧ typeofObject v = false ∧ acc1 = acc)) := by
  rcases hg : getProp objv kn.1 with e | v
  · simp [convertField, hg] at h
  · refine ⟨v, rfl, ?_⟩
    cases v with
    | arr xs =>
      simp only [convertField, hg] at h
      rcases hm : mapExcept (fun e => recf e kn.2) xs with e | rs
      · rw [hm] at h
        cases h
      · rw [hm] at h
        cases h
        exact Or.inl ⟨xs, rs, rfl, hm, rfl⟩
    | null =>
      simp only [convertField, hg, typeofObject, if_true] at h
      rcases hr : recf .null kn.2 with e | r
      · rw [hr] at h
        cases h
      · rw [hr] at h
        cases h
        exact Or.inr (Or.inl ⟨rfl, rfl, r, rfl, rfl⟩)
    | obj fs =>
      simp only [convertField, hg, typeofObject, if_true] at h
      rcases hr : recf (.obj fs) kn.2 with e | r
      · rw [hr] at h
        cases h
      · rw [hr] at h
        cases h
        exact Or.inr (Or.inl ⟨rfl, rfl, r, rfl, rfl⟩)
    | list xs =>
      simp only [convertField, hg, typeofObject, if_true] at h
      rcases hr : recf (.list xs) kn.2 with e | r
      · rw [hr] at h
        cases h
      · rw [hr] at h
        cases h
        exact Or.inr (Or.inl ⟨rfl, rfl, r, rfl, rfl⟩)
    | record fs =>
      simp only [convertField, hg, typeofObject, if_true] at h
      rcases hr : recf (.record fs) kn.2 with e | r
      · rw [hr] at h
        cases h
      · rw [hr] at h
        cases h
        exact Or.inr (Or.inl ⟨rfl, rfl, r, rfl, rfl⟩)
    | undefined =>
      simp only [convertField, hg, typeofObject] at h
      cases h
      exact Or.inr (Or.inr ⟨rfl, rfl, rfl⟩)
    | bool b =>
      simp only [convertField, hg, typeofObject] at h
      cases h
      exact Or.inr (Or.inr ⟨rfl, rfl, rfl⟩)
    | num n =>
      simp only [convertField, hg, typeofObject] at h
      cases h
      exact Or.inr (Or.inr ⟨rfl, rfl, rfl⟩)
    | str s =>
      simp only [convertField, hg, typeofObject] at h
      cases h
      exact Or.inr (Or.inr ⟨rfl, rfl, rfl⟩)

/-- A successful descriptor loop run leaves every field whose key is not a
descriptor key exactly as it was in the working copy. -/
theorem convertFields_ok_frame {recf : Value → String → Except JsError Value}
    {objv : Value} {desc : List (String × String)} {acc out : List (String × Value)}
    (h : convertFields recf objv desc acc = .ok out) {k : String}
    (hk : k ∉ desc.map Prod.fst) :
    lookupKey k out = lookupKey k acc := by
  induction desc generalizing acc with
  | nil =>
    simp only [convertFields] at h
    cases h
    rfl
  | cons kn rest ih =>
    simp only [convertFields] at h
    rcases hcf : convertField recf objv acc kn with e | acc1
    · rw [hcf] at h
      cases h
    · rw [hcf] at h
      simp only [List.map_cons, List.mem_cons] at hk
      push_neg at hk
      have hne : k ≠ kn.1 := hk.1
      have := ih h hk.2
      rw [this]
      rcases convertField_ok_cases hcf with ⟨v, _, hbr⟩
      rcases hbr with ⟨xs, rs, _, _, hs⟩ | ⟨_, _, r, _, hs⟩ | ⟨_, _, hs⟩ <;>
        rw [hs]
      · exact lookupKey_setField_other hne
      · exact lookupKey_setField_other hne

/-- What a successful descriptor loop run left in the working copy at a
descriptor key (descriptor keys are distinct, as JS object keys are). -/
theorem convertFields_ok_at {recf : Value → String → Except JsError Value}
    {objv : Value} {desc : List (String × String)} {acc out : List (String × Value)}
    {kn : String × String}
    (hnd : (desc.map Prod.fst).Nodup) (hmem : kn ∈ desc)
    (h : convertFields recf objv desc acc = .ok out) :
    ∃ v, getProp objv kn.1 = .ok v ∧
      ((∃ xs rs, v = .arr xs ∧ mapExcept (fun e => recf e kn.2) xs = .ok rs ∧
          lookupKey kn.1 out = some (.list rs)) ∨
       (isArray v = false ∧ typeofObject v = true ∧
          ∃ r, recf v kn.2 = .ok r ∧ lookupKey kn.1 out = some r) ∨
       (isArray v = false ∧ typeofObject v = false ∧
          lookupKey kn.1 out = lookupKey kn.1 acc)) := by
  induction desc generalizing acc with
  | nil => simp at hmem
  | cons p rest ih =>
    simp only [convertFields] at h
    rcases hcf : convertField recf objv acc p with e | acc1
    · rw [hcf] at h
      cases h
    · rw [hcf] at h
      simp only [List.map_cons, List.nodup_cons] at hnd
      rw [List.mem_cons] at hmem
      rcases hmem with hmem | hmem
    
      · subst hmem
        have hframe : lookupKey kn.1 out = lookupKey kn.1 acc1 :=
          convertFields_ok_frame h hnd.1
        rcases convertField_ok_cases hcf with ⟨v, hg, hbr⟩
        refine ⟨v, hg, ?_⟩
        rcases hbr with ⟨xs, rs, hvv, hm, hs⟩ | ⟨h1, h2, r, hr, hs⟩ | ⟨h1, h2, hs⟩
        · exact Or.inl ⟨xs, rs, hvv, hm, by rw [hframe, hs, lookupKey_setField_self]⟩
        · exact Or.inr (Or.inl ⟨h1, h2, r, hr, by rw [hframe, hs, lookupKey_setField_self]⟩)
        · exact Or.inr (Or.inr ⟨h1, h2, by rw [hframe, hs]⟩)
      · have hne : p.1 ≠ kn.1 := by
          intro he
          exact hnd.1 (he ▸ List.mem_map_of_mem Prod.fst hmem)
        rcases ih hnd.2 hmem h with ⟨v, hg, hbr⟩
        refine ⟨v, hg, ?_⟩
        rcases hbr with hbr | hbr | ⟨h1, h2, hs⟩
        · exact Or.inl hbr
        · exact Or.inr (Or.inl hbr)
        · refine Or.inr (Or.inr ⟨h1, h2, ?_⟩)
          rw [hs]
          rcases convertField_ok_cases hcf with ⟨w, _, hbr2⟩
          rcases hbr2 with ⟨xs, rs, _, _, hs2⟩ | ⟨_, _, r, _, hs2⟩ | ⟨_, _, hs2⟩ <;>
            rw [hs2]
          · exact lookupKey_setField_other (fun he => hne he.symm)
          · exact lookupKey_setField_other (fun he => hne he.symm)

/-- Forward construction: if every descriptor entry can be processed without
an exception, the whole loop succeeds. -/
theorem convertFields_ok_of_fields {recf : Value → String → Except JsError Value}
    {objv : Value} {desc : List (String × String)}
    (h : ∀ kn ∈ desc, ∃ v, getProp objv kn.1 = .ok v ∧
        ((∃ xs, v = .arr xs ∧ ∃ rs, mapExcept (fun e => recf e kn.2) xs = .ok rs) ∨
         (isArray v = false ∧ typeofObject v = true ∧ ∃ r, recf v kn.2 = .ok r) ∨
         (isArray v = false ∧ typeofObject v = false))) :
    ∀ acc, ∃ out, convertFields recf objv desc acc = .ok out := by
  induction desc with
  | nil => exact fun acc => ⟨acc, rfl⟩
  | cons kn rest ih =>
    intro acc
    rcases h kn (List.mem_cons_self kn rest) with ⟨v, hg, hbr⟩
    have hstep : ∃ acc1, convertField recf objv acc kn = .ok acc1 := by
      rcases hbr with ⟨xs, hvv, rs, hm⟩ | ⟨h1, h2, r, hr⟩ | ⟨h1, h2⟩
      · subst hvv
        exact ⟨setField acc kn.1 (.list rs), by simp only [convertField, hg, hm]⟩
      · cases v with
        | arr xs => simp [isArray] at h1
        | null =>
          exact ⟨setField acc kn.1 r, by simp only [convertField, hg, typeofObject, if_true, hr]⟩
        | obj fs =>
          exact ⟨setField acc kn.1 r, by simp only [convertField, hg, typeofObject, if_true, hr]⟩
        | list xs =>
          exact ⟨setField acc kn.1 r, by simp only [convertField, hg, typeofObject, if_true, hr]⟩
        | record fs =>
          exact ⟨setField acc kn.1 r, by simp only [convertField, hg, typeofObject, if_true, hr]⟩
        | undefined => simp [typeofObject] at h2
        | bool b => simp [typeofObject] at h2
        | num n => simp [typeofObject] at h2
        | str s => simp [typeofObject] at h2
      · cases v with
        | arr xs => simp [isArray] at h1
        | null => simp [typeofObject] at h2
        | obj fs => simp [typeofObject] at h2
        | list xs => simp [typeofObject] at h2
        | record fs => simp [typeofObject] at h2
        | undefined => exact ⟨acc, by simp [convertField, hg, typeofObject]⟩
        | bool b => exact ⟨acc, by simp [convertField, hg, typeofObject]⟩
        | num n => exact ⟨acc, by simp [convertField, hg, typeofObject]⟩
        | str s => exact ⟨acc, by simp [convertField, hg, typeofObject]⟩
    rcases hstep with ⟨acc1, hcf⟩
    rcases ih (fun p hp => h p (List.mem_cons_of_mem kn hp)) acc1 with ⟨out, hout⟩
    exact ⟨out, by simp only [convertFields, hcf, hout]⟩

-- ==========================================================================
-- mapExcept lemmas.
-- ==========================================================================

theorem mapExcept_ok_iff {f : Value → Except JsError Value} {xs : List Value}
    {rs : List Value} :
    mapExcept f xs = .ok rs ↔ List.Forall₂ (fun x r => f x = .ok r) xs rs := by
  induction xs generalizing rs with
  | nil =>
    constructor
    · intro h
      cases h
      exact List.Forall₂.nil
    · intro h
      cases h
      rfl
  | cons x rest ih =>
    constructor
    · intro h
      simp only [mapExcept] at h
      rcases hx : f x with e | r
      · rw [hx] at h
        cases h
      · rw [hx] at h
        rcases hm : mapExcept f rest with e | rs0
        · rw [hm] at h
          cases h
        · rw [hm] at h
          cases h
          exact List.Forall₂.cons hx (ih.mp hm)
    · intro h
      cases h with
      | cons hx hrest =>
        simp only [mapExcept, hx, ih.mpr hrest]

theorem mapExcept_ok_of_mem {f : Value → Except JsError Value} {xs : List Value}
    (h : ∀ x ∈ xs, ∃ r, f x = .ok r) : ∃ rs, mapExcept f xs = .ok rs := by
  induction xs with
  | nil => exact ⟨[], rfl⟩
  | cons x rest ih =>
    rcases h x (List.mem_cons_self x rest) with ⟨r, hr⟩
    rcases ih (fun y hy => h y (List.mem_cons_of_mem x hy)) with ⟨rs, hrs⟩
    exact ⟨r :: rs, by simp only [mapExcept, hr, hrs]⟩

-- ==========================================================================
-- toJS lemmas.
-- ==========================================================================

theorem toJSFields_eq_map (fs : List (String × Value)) :
    toJSFields fs = fs.map (fun p => (p.1, toJS p.2)) := by
  induction fs with
  | nil => rfl
  | cons p rest ih => simp only [toJSFields, ih, List.map_cons]

theorem toJSList_eq_map (xs : List Value) : toJSList xs = xs.map toJS := by
  induction xs with
  | nil => rfl
  | cons x rest ih => simp only [toJSList, ih, List.map_cons]

-- ==========================================================================
-- Record construction lemmas and the success inversion of fromJS.
-- ==========================================================================

theorem recFields_recordCtor {T P : List (String × Value)} :
    recFields (recordCtor T (.obj P)) =
      T.map (fun kd => (kd.1, (lookupKey kd.1 P).getD kd.2)) := rfl

theorem recordCtor_null {T : List (String × Value)} :
    recordCtor T .null = .record T := by
  simp [recordCtor, ownFields, lookupKey]

theorem lookupKey_of_mem_nodup {α : Type} {l : List (String × α)} {p : String × α}
    (hnd : (l.map Prod.fst).Nodup) (hm : p ∈ l) : lookupKey p.1 l = some p.2 := by
  induction l with
  | nil => simp at hm
  | cons q rest ih =>
    simp only [List.map_cons, List.nodup_cons] at hnd
    rw [List.mem_cons] at hm
    rcases hm with hm | hm
    · subst hm
      simp [lookupKey]
    · have hq : q.1 ≠ p.1 := by
        intro he
        exact hnd.1 (he ▸ List.mem_map_of_mem Prod.fst hm)
      simp only [lookupKey, if_neg hq]
      exact ih hnd.2 hm

/-- Successful runs of `fromJS` decompose into: a registry entry with a
registered factory, a successful descriptor loop over the shallow working
copy, and the factory applied to the loop's result. -/
theorem fromJS_ok_inversion {objv : Value} {facTree : FacTree} {facName : String}
    {r : Value} (h : fromJS objv facTree facName = .ok r) :
    ∃ entry template out, lookupKey facName facTree = some entry ∧
      entry.factory = some template ∧
      convertFields (fun v n => fromJS v facTree n) objv (entry.descriptor.getD [])
        (ownFields objv) = .ok out ∧
      r = recordCtor template (.obj out) := by
  rw [fromJS_eq] at h
  rcases hl : lookupKey facName facTree with _ | entry
  · simp only [fromJSBody, hl] at h
    cases h
  · rcases hf : entry.factory with _ | template
    · simp only [fromJSBody, hl, hf] at h
      cases h
    · rcases hd : entry.descriptor with _ | desc
      · simp only [fromJSBody, hl, hf, hd, Except.ok.injEq] at h
        exact ⟨entry, template, ownFields objv, rfl, hf, by rw [hd]; rfl, h.symm⟩
      · simp only [fromJSBody, hl, hf, hd] at h
        rcases hc : convertFields (fun v n => fromJS v facTree n) objv desc
            (ownFields objv) with e | out
        · rw [hc] at h
          cases h
        · rw [hc] at h
          simp only [Except.ok.injEq] at h
          exact ⟨entry, template, out, rfl, hf, by rw [hd]; exact hc, h.symm⟩

-- ==========================================================================
-- Claim theorems.
-- ==========================================================================

/-- C1: calling `fromJS` with a factory name that is not a key of the
registry aborts with no record; but the error raised is a TypeError from
line 134's read of `.factory` on an undefined registry entry, not the
line-135 "No factory found" error the spec describes (the line-135 guard is
dead code for an absent key, since line 134 throws first).  Evaluated here
at the failing input: registry with only a "pet" entry, factory name
"person". -/
theorem fromJS_unknown_factory_raises_typeError :
    lookupKey "person"
        [("pet", FactoryEntry.mk none (some [("name", Value.str ""), ("kind", Value.str "")]))] =
      none ∧
    fromJS (.obj [("name", .str "Ann")])
        [("pet", FactoryEntry.mk none (some [("name", Value.str ""), ("kind", Value.str "")]))]
        "person" =
      .error (.typeError "Cannot read properties of undefined (reading factory)") :=
  ⟨rfl, rfl⟩

/-- C2 counterexample: a descriptor field holding null is NOT left untouched
(typeof null is 'object' in JS, so line 146 recurses into it and produces
the nested factory's all-defaults record), and a descriptor field holding an
array of scalars is also recursed into (line 142 tests Array.isArray only).
Registry: "p" with descriptor {child: 'c', nums: 'c'}; input
{child: null, nums: [1]}; the resulting record holds a converted record
where the claim requires the original null. -/
theorem fromJS_null_field_converted_cex :
    fromJS (.obj [("child", .null), ("nums", .arr [.num 1])])
        [("p", FactoryEntry.mk (some [("child", "c"), ("nums", "c")])
            (some [("child", Value.null), ("nums", Value.arr [])])),
         ("c", FactoryEntry.mk none (some [("x", Value.num 9)]))] "p" =
      .ok (.record [("child", .record [("x", .num 9)]),
                    ("nums", .list [.record [("x", .num 9)]])]) ∧
    lookupKey "child"
        (recFields (Value.record [("child", .record [("x", .num 9)]),
                                  ("nums", .list [.record [("x", .num 9)]])])) =
      some (.record [("x", .num 9)]) ∧
    Value.record [("x", Value.num 9)] ≠ Value.null :=
  ⟨rfl, rfl, by simp⟩

/-- C2 [corrected]: a descriptor field whose value is a scalar (boolean,
number or string) or absent is left untouched in the working copy, so the
produced record holds the value the input had there (through the template's
default fallback).  Recursion happens exactly when the value is an array
(of any elements, line 142) or has JS type 'object' (line 146) — which
includes null, so null fields are converted, not kept. -/
theorem fromJS_scalar_field_untouched
    {F : List (String × Value)} {facTree : FacTree} {facName : String}
    {entry : FactoryEntry} {T : List (String × Value)}
    {kn : String × String} {d : Value} {r : Value}
    (hl : lookupKey facName facTree = some entry)
    (hf : entry.factory = some T)
    (hnd : ((entry.descriptor.getD []).map Prod.fst).Nodup)
    (hmem : kn ∈ entry.descriptor.getD [])
    (hT : lookupKey kn.1 T = some d)
    (hsc1 : isArray ((lookupKey kn.1 F).getD .undefined) = false)
    (hsc2 : typeofObject ((lookupKey kn.1 F).getD .undefined) = false)
    (h : fromJS (.obj F) facTree facName = .ok r) :
    lookupKey kn.1 (recFields r) = some ((lookupKey kn.1 F).getD d) := by
  rcases fromJS_ok_inversion h with ⟨entry2, T2, out, hl2, hf2, hconv, hr⟩
  rw [hl] at hl2
  cases hl2
  rw [hf] at hf2
  cases hf2
  rcases convertFields_ok_at hnd hmem hconv with ⟨v, hg, hbr⟩
  have hv : v = (lookupKey kn.1 F).getD .undefined := by
    have hgp : getProp (.obj F) kn.1 = .ok ((lookupKey kn.1 F).getD .undefined) := rfl
    rw [hgp] at hg
    injection hg with hg
    exact hg.symm
  subst hv
  rcases hbr with ⟨xs, rs, hvv, _, _⟩ | ⟨_, hto, _⟩ | ⟨_, _, hout⟩
  · rw [hvv] at hsc1
    simp [isArray] at hsc1
  · rw [hto] at hsc2
    cases hsc2
  · subst hr
    rw [recFields_recordCtor, lookupKey_mapRecord hT, hout]
    rfl

/-- C2 amended-claim witness: registry "p" with descriptor {age: 'c'},
input {age: 7}: the scalar descriptor field is passed through untouched. -/
theorem fromJS_scalar_field_untouched_witness :
    lookupKey "age"
        (recFields (Value.record [("age", Value.num 7)])) =
      some ((lookupKey "age" [("age", Value.num 7)]).getD (Value.num 0)) :=
  @fromJS_scalar_field_untouched
    [("age", Value.num 7)]
    [("p", FactoryEntry.mk (some [("age", "c")]) (some [("age", Value.num 0)])),
     ("c", FactoryEntry.mk none (some [("z", Value.num 0)]))]
    "p"
    (FactoryEntry.mk (some [("age", "c")]) (some [("age", Value.num 0)]))
    [("age", Value.num 0)]
    ("age", "c")
    (Value.num 0)
    (Value.record [("age", Value.num 7)])
    rfl rfl (by decide) (by decide) rfl rfl rfl rfl

/-- C3 counterexample: a registry whose descriptor graph is cyclic
("person" names itself through its descriptor's "master" field), on which
the claim asserts non-termination of the conversion; yet `fromJS`
terminates and returns a record, and already two units of call depth
suffice for this input (the fuelled evaluator with fuel 2 gives the same
result, with no stack overflow): the recursion follows the finite input
object, not the infinite descriptor graph. -/
theorem fromJS_cyclic_registry_terminates_cex :
    lookupKey "person"
        [("person", FactoryEntry.mk (some [("master", "person")])
            (some [("name", Value.str ""), ("master", Value.null)]))] =
      some (FactoryEntry.mk (some [("master", "person")])
            (some [("name", Value.str ""), ("master", Value.null)])) ∧
    fromJSFuel 2 (.obj [("name", .str "a"), ("master", .obj [("name", .str "b")])])
        [("person", FactoryEntry.mk (some [("master", "person")])
            (some [("name", Value.str ""), ("master", Value.null)]))] "person" =
      .ok (.record [("name", .str "a"),
                    ("master", .record [("name", .str "b"), ("master", Value.null)])]) ∧
    fromJS (.obj [("name", .str "a"), ("master", .obj [("name", .str "b")])])
        [("person", FactoryEntry.mk (some [("master", "person")])
            (some [("name", Value.str ""), ("master", Value.null)]))] "person" =
      .ok (.record [("name", .str "a"),
                    ("master", .record [("name", .str "b"), ("master", Value.null)])]) :=
  ⟨rfl, rfl, rfl⟩

/-- C3 [corrected]: the recursion depth of `fromJS` is bounded by the size
of the input object, for every registry — cyclic descriptor graphs
included: any call-depth budget of at least `vsize obj` is enough for the
conversion to run to completion with the same result as `fromJS`, so on
finite input the conversion always terminates and never exhausts the stack,
whatever the descriptor graph's shape. -/
theorem fromJS_depth_bounded {fuel : Nat} (objv : Value) (facTree : FacTree)
    (facName : String) (h : vsize objv ≤ fuel) :
    fromJSFuel fuel objv facTree facName = fromJS objv facTree facName :=
  fromJSFuel_agree fuel (vsize objv) objv facTree facName h (le_refl _)

/-- C3 amended-claim witness, on the cyclic registry of the
counterexample. -/
theorem fromJS_depth_bounded_witness :
    vsize (Value.obj [("name", .str "a"), ("master", .obj [("name", .str "b")])]) ≤ 4 ∧
    fromJSFuel 4 (.obj [("name", .str "a"), ("master", .obj [("name", .str "b")])])
        [("person", FactoryEntry.mk (some [("master", "person")])
            (some [("name", Value.str ""), ("master", Value.null)]))] "person" =
      fromJS (.obj [("name", .str "a"), ("master", .obj [("name", .str "b")])])
        [("person", FactoryEntry.mk (some [("master", "person")])
            (some [("name", Value.str ""), ("master", Value.null)]))] "person" :=
  ⟨by decide, fromJS_depth_bounded _ _ _ (by decide)⟩

/-- C5: when a successful `fromJS` run meets a descriptor field holding an
array, the produced record's field is an Immutable.List of exactly the
recursively converted elements, element for element, in the original
order (the conversion of the elements is the left-to-right `mapExcept` of
the recursive call, and the Forall₂ conjunct relates positions
pairwise). -/
theorem fromJS_array_field_order_preserved
    {F : List (String × Value)} {facTree : FacTree} {facName k n₀ : String}
    {entry : FactoryEntry} {T : List (String × Value)} {D : List (String × String)}
    {xs : List Value} {d : Value} {r : Value}
    (hl : lookupKey facName facTree = some entry)
    (hf : entry.factory = some T)
    (hd : entry.descriptor = some D)
    (hnd : (D.map Prod.fst).Nodup)
    (hmem : (k, n₀) ∈ D)
    (harr : lookupKey k F = some (.arr xs))
    (hT : lookupKey k T = some d)
    (h : fromJS (.obj F) facTree facName = .ok r) :
    ∃ rs, mapExcept (fun e => fromJS e facTree n₀) xs = .ok rs ∧
      List.Forall₂ (fun e re => fromJS e facTree n₀ = .ok re) xs rs ∧
      lookupKey k (recFields r) = some (.list rs) := by
  rcases fromJS_ok_inversion h with ⟨entry2, T2, out, hl2, hf2, hconv, hr⟩
  rw [hl] at hl2
  cases hl2
  rw [hf] at hf2
  cases hf2
  rw [hd] at hconv
  have hat := convertFields_ok_at hnd hmem hconv
  rcases hat with ⟨v, hg, hbr⟩
  have hv : v = .arr xs := by
    have hgp : getProp (.obj F) (k, n₀).1 = .ok ((lookupKey k F).getD .undefined) := rfl
    rw [hgp, harr] at hg
    injection hg with hg
    exact hg.symm
  subst hv
  rcases hbr with ⟨xs2, rs, hxs2, hm, hout⟩ | ⟨hisarr, _, _⟩ | ⟨hisarr, _, _⟩
  · injection hxs2 with he
    subst he
    have hm2 : mapExcept (fun e => fromJS e facTree n₀) xs = .ok rs := hm
    have hout2 : lookupKey k out = some (Value.list rs) := hout
    refine ⟨rs, hm2, mapExcept_ok_iff.mp hm2, ?_⟩
    subst hr
    rw [recFields_recordCtor, lookupKey_mapRecord hT, hout2]
    rfl
  · simp [isArray] at hisarr
  · simp [isArray] at hisarr

/-- C5 witness, at the claim's own example: descriptor {items: 'item'},
input {items: [{n:1}, {n:2}]}: the record's items field is the List of the
two converted records in that exact order. -/
theorem fromJS_array_field_order_preserved_witness :
    ∃ rs, mapExcept (fun e =>
        fromJS e [("parent", FactoryEntry.mk (some [("items", "item")])
                     (some [("items", Value.arr [])])),
                  ("item", FactoryEntry.mk none (some [("n", Value.num 0)]))] "item")
        [.obj [("n", .num 1)], .obj [("n", .num 2)]] = .ok rs ∧
      List.Forall₂ (fun e re =>
        fromJS e [("parent", FactoryEntry.mk (some [("items", "item")])
                     (some [("items", Value.arr [])])),
                  ("item", FactoryEntry.mk none (some [("n", Value.num 0)]))] "item" =
          .ok re)
        [.obj [("n", .num 1)], .obj [("n", .num 2)]] rs ∧
      lookupKey "items"
          (recFields (Value.record
            [("items", Value.list [Value.record [("n", Value.num 1)],
                                   Value.record [("n", Value.num 2)]])])) =
        some (.list rs) :=
  @fromJS_array_field_order_preserved
    [("items", Value.arr [.obj [("n", .num 1)], .obj [("n", .num 2)]])]
    [("parent", FactoryEntry.mk (some [("items", "item")])
        (some [("items", Value.arr [])])),
     ("item", FactoryEntry.mk none (some [("n", Value.num 0)]))]
    "parent" "items" "item"
    (FactoryEntry.mk (some [("items", "item")]) (some [("items", Value.arr [])]))
    [("items", Value.arr [])]
    [("items", "item")]
    [.obj [("n", .num 1)], .obj [("n", .num 2)]]
    (Value.arr [])
    (Value.record [("items", Value.list [Value.record [("n", Value.num 1)],
                                         Value.record [("n", Value.num 2)]])])
    rfl rfl rfl (by decide) (by decide) rfl rfl rfl

/-- C6: a field of the input object whose name is not a descriptor key is
passed through to the factory unchanged (whatever its shape — including
nested objects and arrays), so the produced record holds exactly the input
value of that field (or the template default when the field is absent). -/
theorem fromJS_nondescriptor_field_passthrough
    {F : List (String × Value)} {facTree : FacTree} {facName f : String}
    {entry : FactoryEntry} {T : List (String × Value)} {d : Value} {r : Value}
    (hl : lookupKey facName facTree = some entry)
    (hf : entry.factory = some T)
    (hnd : f ∉ (entry.descriptor.getD []).map Prod.fst)
    (hT : lookupKey f T = some d)
    (h : fromJS (.obj F) facTree facName = .ok r) :
    lookupKey f (recFields r) = some ((lookupKey f F).getD d) := by
  rcases fromJS_ok_inversion h with ⟨entry2, T2, out, hl2, hf2, hconv, hr⟩
  rw [hl] at hl2
  cases hl2
  rw [hf] at hf2
  cases hf2
  have hframe := convertFields_ok_frame hconv hnd
  subst hr
  rw [recFields_recordCtor, lookupKey_mapRecord hT, hframe]
  rfl

/-- C6 witness: a "data" field holding a nested plain object but absent from
the descriptor {child: 'c'} arrives in the record unconverted. -/
theorem fromJS_nondescriptor_field_passthrough_witness :
    lookupKey "data"
        (recFields (Value.record [("name", Value.str "Ann"),
                                  ("data", Value.obj [("x", Value.num 1)])])) =
      some ((lookupKey "data" [("name", Value.str "Ann"),
                               ("data", Value.obj [("x", Value.num 1)])]).getD Value.null) :=
  @fromJS_nondescriptor_field_passthrough
    [("name", Value.str "Ann"), ("data", Value.obj [("x", Value.num 1)])]
    [("parent", FactoryEntry.mk (some [("child", "c")])
        (some [("name", Value.str ""), ("data", Value.null)])),
     ("c", FactoryEntry.mk none (some [("y", Value.num 0)]))]
    "parent" "data"
    (FactoryEntry.mk (some [("child", "c")])
        (some [("name", Value.str ""), ("data", Value.null)]))
    [("name", Value.str ""), ("data", Value.null)]
    Value.null
    (Value.record [("name", Value.str "Ann"), ("data", Value.obj [("x", Value.num 1)])])
    rfl rfl (by decide) rfl rfl

/-- C8: the factory returned by `makeTypedFactory` yields the template's
exact defaults when called with no argument, and with a (partial) value
every template field takes the argument's own value of that name when
present and the template default otherwise — by top-level presence only (no
deep merge: a present field is taken wholesale). -/
theorem makeTypedFactory_default_fallback {T V : List (String × Value)}
    {nm : Option String} {k : String} {d : Value}
    (hT : lookupKey k T = some d) :
    makeTypedFactory (.obj T) nm none = .record T ∧
    lookupKey k (recFields (makeTypedFactory (.obj T) nm (some (.obj V)))) =
      some ((lookupKey k V).getD d) := by
  constructor
  · show recordCtor T .null = Value.record T
    exact recordCtor_null
  · show lookupKey k (recFields (recordCtor T (.obj V))) = _
    rw [recFields_recordCtor, lookupKey_mapRecord hT]

/-- C8 witness: template {name: '', age: 0}, partial value {age: 7}. -/
theorem makeTypedFactory_default_fallback_witness :
    makeTypedFactory (.obj [("name", Value.str ""), ("age", Value.num 0)]) none none =
      .record [("name", Value.str ""), ("age", Value.num 0)] ∧
    lookupKey "name"
        (recFields (makeTypedFactory (.obj [("name", Value.str ""), ("age", Value.num 0)])
          none (some (.obj [("age", Value.num 7)])))) =
      some ((lookupKey "name" [("age", Value.num 7)]).getD (Value.str "")) :=
  makeTypedFactory_default_fallback rfl

/-- C9: `recordify(E, null)` equals `recordify(E, E)`: null is falsy, so the
first call applies the factory with no value (pure defaults); passing the
template itself makes every field fall back to its own default value, which
is the same record (template keys are distinct, as JS object keys are). -/
theorem recordify_null_eq_recordify_template {T : List (String × Value)}
    (hnd : (T.map Prod.fst).Nodup) :
    recordify (.obj T) .null none = recordify (.obj T) (.obj T) none := by
  have hL : recordify (.obj T) .null none = .record T := recordCtor_null
  have hR : recordify (.obj T) (.obj T) none =
      .record (T.map (fun kd => (kd.1, (lookupKey kd.1 T).getD kd.2))) := rfl
  have hmap : T.map (fun kd => (kd.1, (lookupKey kd.1 T).getD kd.2)) = T := by
    conv_rhs => rw [← List.map_id T]
    refine List.map_congr_left ?_
    intro p hp
    rw [lookupKey_of_mem_nodup hnd hp]
    rfl
  rw [hL, hR, hmap]

/-- C9 witness: template {name: '', age: 0}. -/
theorem recordify_null_eq_recordify_template_witness :
    recordify (.obj [("name", Value.str ""), ("age", Value.num 0)]) .null none =
      recordify (.obj [("name", Value.str ""), ("age", Value.num 0)])
        (.obj [("name", Value.str ""), ("age", Value.num 0)]) none :=
  recordify_null_eq_recordify_template (by decide)

/-- C10: `recordify` dispatches on JavaScript truthiness of `val`, not on a
null/undefined check: any falsy value (0, the empty string, false, …) is
ignored entirely and the call behaves exactly like `recordify(defaultVal)`
— the factory is applied with no value and the pure-defaults record is
returned. -/
theorem recordify_falsy_val_ignored {dflt v : Value} (h : truthy v = false) :
    recordify dflt v none = recordify dflt .null none ∧
    recordify dflt v none = makeTypedFactory dflt none none := by
  constructor
  · unfold recordify
    rw [h]
    rfl
  · unfold recordify
    rw [h]
    rfl

/-- C10 witness: the three falsy non-null scalars of the claim (0, '',
false) each behave like passing no value. -/
theorem recordify_falsy_val_ignored_witness :
    (recordify (.obj [("n", Value.num 1)]) (.num 0) none =
       recordify (.obj [("n", Value.num 1)]) .null none) ∧
    (recordify (.obj [("n", Value.num 1)]) (.str "") none =
       recordify (.obj [("n", Value.num 1)]) .null none) ∧
    (recordify (.obj [("n", Value.num 1)]) (.bool false) none =
       recordify (.obj [("n", Value.num 1)]) .null none) :=
  ⟨(recordify_falsy_val_ignored (by decide)).1,
   (recordify_falsy_val_ignored (by decide)).1,
   (recordify_falsy_val_ignored (by decide)).1⟩

-- ==========================================================================
-- Supporting lemmas for the round-trip theorem (claim C4).
-- ==========================================================================

theorem descShape_cases {o : Option Value} (h : descShape o = true) :
    ∃ u, o = some u ∧ ((∃ G, u = .obj G) ∨
      (∃ xs, u = .arr xs ∧ ∀ e ∈ xs, ∃ H, e = .obj H)) := by
  rcases o with _ | u
  · simp [descShape] at h
  · refine ⟨u, rfl, ?_⟩
    cases u with
    | obj G => exact Or.inl ⟨G, rfl⟩
    | arr xs =>
      refine Or.inr ⟨xs, rfl, ?_⟩
      intro e he
      have h2 := List.all_eq_true.mp h e he
      cases e with
      | obj H => exact ⟨H, rfl⟩
      | null => simp [isObjLit] at h2
      | undefined => simp [isObjLit] at h2
      | bool b => simp [isObjLit] at h2
      | num n => simp [isObjLit] at h2
      | str s => simp [isObjLit] at h2
      | arr ys => simp [isObjLit] at h2
      | list ys => simp [isObjLit] at h2
      | record fs => simp [isObjLit] at h2
    | null => simp [descShape] at h
    | undefined => simp [descShape] at h
    | bool b => simp [descShape] at h
    | num n => simp [descShape] at h
    | str s => simp [descShape] at h
    | list ys => simp [descShape] at h
    | record fs => simp [descShape] at h

theorem scalar_toJS_deepEq {w : Value} (h : scalar w = true) :
    toJS w = w ∧ DeepEq w w := by
  cases w with
  | null => exact ⟨rfl, DeepEq.null⟩
  | bool b => exact ⟨rfl, DeepEq.bool b⟩
  | num n => exact ⟨rfl, DeepEq.num n⟩
  | str s => exact ⟨rfl, DeepEq.str s⟩
  | undefined => simp [scalar] at h
  | arr xs => simp [scalar] at h
  | obj fs => simp [scalar] at h
  | list xs => simp [scalar] at h
  | record fs => simp [scalar] at h

theorem bool_eq_of_iff {a b : Bool} (h : a = true ↔ b = true) : a = b := by
  cases a <;> cases b <;> simp_all

/-- The mapped property table of a record keeps exactly the template's key
set. -/
theorem lookupKey_isSome_map {α β : Type} {T : List (String × α)}
    {f : String × α → β} {k : String} :
    (lookupKey k (T.map (fun kd => (kd.1, f kd)))).isSome =
      (lookupKey k T).isSome := by
  induction T with
  | nil => rfl
  | cons p rest ih =>
    by_cases hp : p.1 = k
    · simp [List.map_cons, lookupKey, hp]
    · simp [List.map_cons, lookupKey, hp, ih]

/-- Inverting a lookup in a key-preserving mapped property table. -/
theorem lookupKey_map_pair {α β : Type} {T : List (String × α)}
    {f : String × α → β} {k : String} {v : β}
    (h : lookupKey k (T.map (fun kd => (kd.1, f kd))) = some v) :
    ∃ d, lookupKey k T = some d ∧ v = f (k, d) := by
  induction T with
  | nil => simp [lookupKey] at h
  | cons p rest ih =>
    by_cases hp : p.1 = k
    · subst hp
      simp only [List.map_cons, lookupKey, if_pos rfl] at h
      injection h with h
      refine ⟨p.2, by simp [lookupKey], ?_⟩
      rw [← h]
    · simp only [List.map_cons, lookupKey, if_neg hp] at h
      rcases ih h with ⟨d, hd, hv⟩
      exact ⟨d, by simp [lookupKey, hp, hd], hv⟩

theorem forall₂_get {R : Value → Value → Prop} {xs ys : List Value}
    (h : List.Forall₂ R xs ys) :
    ∀ (i : Nat) (h1 : i < xs.length) (h2 : i < ys.length), R xs[i] ys[i] := by
  induction h with
  | nil =>
    intro i h1 h2
    simp at h1
  | cons hR hrest ih =>
    intro i h1 h2
    cases i with
    | zero => exact hR
    | succ i => exact ih i (by simpa using h1) (by simpa using h2)

/-- C4: round trip.  For every registry and every input object that matches
the registry's descriptor shape exactly (each descriptor field a nested
object or array of objects recursively matching the nested factory, every
other field a scalar, key set equal to the template's), `fromJS` succeeds
and converting the resulting record back to plain data with `toJS` yields a
value deep-equal to the input.  No acyclicity assumption on the descriptor
graph is needed: the theorem holds for every registry, cyclic ones
included, which covers the claim's acyclic case a fortiori. -/
theorem fromJS_toJS_roundtrip {facTree : FacTree} {facName : String} {objv : Value}
    (h : Matches facTree facName objv) :
    ∃ r, fromJS objv facTree facName = .ok r ∧ DeepEq (toJS r) objv := by
  induction h with
  | mk facName F entry T D hlook hfac hdesc hTnd hDnd hkeys1 hkeys2 hscal hshape
      hrec1 hrec2 ih1 ih2 =>
    -- every descriptor entry converts without an exception
    have hfields : ∀ kn ∈ D, ∃ v, getProp (.obj F) kn.1 = .ok v ∧
        ((∃ xs, v = .arr xs ∧
            ∃ rs, mapExcept (fun e => (fun v n => fromJS v facTree n) e kn.2) xs = .ok rs) ∨
         (isArray v = false ∧ typeofObject v = true ∧
            ∃ r, (fun v n => fromJS v facTree n) v kn.2 = .ok r) ∨
         (isArray v = false ∧ typeofObject v = false)) := by
      intro kn hkn
      rcases descShape_cases (hshape kn hkn) with ⟨u, hu, hcase⟩
      refine ⟨u, ?_, ?_⟩
      · show Except.ok ((lookupKey kn.1 F).getD .undefined) = .ok u
        rw [hu]
        rfl
      · rcases hcase with ⟨G, rfl⟩ | ⟨xs, rfl, hall⟩
        · right
          left
          refine ⟨rfl, rfl, ?_⟩
          rcases ih1 kn hkn G hu with ⟨r, hr, _⟩
          exact ⟨r, hr⟩
        · left
          refine ⟨xs, rfl, ?_⟩
          apply mapExcept_ok_of_mem
          intro e he
          rcases ih2 kn hkn xs hu e he with ⟨r, hr, _⟩
          exact ⟨r, hr⟩
    rcases convertFields_ok_of_fields hfields (ownFields (.obj F)) with ⟨out, hconv⟩
    -- the whole conversion succeeds
    have hok : fromJS (.obj F) facTree facName = .ok (recordCtor T (.obj out)) := by
      rw [fromJS_eq]
      rcases hd : entry.descriptor with _ | D0
      · have hD : D = [] := by
          rw [hd] at hdesc
          exact hdesc.symm
        subst hD
        simp only [convertFields] at hconv
        injection hconv with hconv
        simp only [fromJSBody, hlook, hfac, hd]
        rw [hconv]
      · have hD : D0 = D := by
          rw [hd] at hdesc
          exact hdesc
        subst hD
        simp only [fromJSBody, hlook, hfac, hd, hconv]
    refine ⟨recordCtor T (.obj out), hok, ?_⟩
    -- unfold toJS of the produced record
    have htoJS : toJS (recordCtor T (.obj out)) =
        .obj (T.map (fun kd => (kd.1, toJS ((lookupKey kd.1 out).getD kd.2)))) := by
      have h1 : recordCtor T (.obj out) =
          .record (T.map (fun kd => (kd.1, (lookupKey kd.1 out).getD kd.2))) := rfl
      rw [h1]
      have h2 : ∀ fs, toJS (.record fs) = Value.obj (toJSFields fs) := fun _ => rfl
      rw [h2, toJSFields_eq_map, List.map_map]
      rfl
    rw [htoJS]
    -- deep equality, field by field
    refine DeepEq.obj ?_ ?_
    · intro k
      have h1 : (lookupKey k (T.map (fun kd =>
          (kd.1, toJS ((lookupKey kd.1 out).getD kd.2))))).isSome =
            (lookupKey k T).isSome :=
        lookupKey_isSome_map
      rw [h1]
      apply bool_eq_of_iff
      rw [lookupKey_isSome_iff, lookupKey_isSome_iff]
      constructor
      · intro hk
        rcases List.mem_map.mp hk with ⟨p, hp, hpk⟩
        exact hpk ▸ hkeys2 p hp
      · intro hk
        rcases List.mem_map.mp hk with ⟨p, hp, hpk⟩
        exact hpk ▸ hkeys1 p hp
    · intro k v w hv hw
      rcases lookupKey_map_pair hv with ⟨d, hdT, hvd⟩
      by_cases hkD : k ∈ D.map Prod.fst
      · -- a descriptor field: recursively converted
        rcases List.mem_map.mp hkD with ⟨kn, hknD, hkn1⟩
        rcases convertFields_ok_at hDnd hknD hconv with ⟨u, hg, hbr⟩
        have hgu : Except.ok ((lookupKey kn.1 F).getD Value.undefined) = Except.ok u := hg
        rw [hkn1, hw] at hgu
        have huw : u = w := by
          injection hgu with hgu
          exact hgu.symm
        subst huw
        rcases descShape_cases (hshape kn hknD) with ⟨u0, hu0, hcase⟩
        rw [hkn1, hw] at hu0
        have hu0w : u0 = u := by
          injection hu0 with hu0
          exact hu0.symm
        subst hu0w
        rcases hbr with ⟨xs, rs, hvarr, hm, hout⟩ | ⟨hisarr, hto, r0, hr0, hout⟩ |
          ⟨hisarr, hto, hout⟩
        · -- array of objects
          subst hvarr
          have hm2 : mapExcept (fun e => fromJS e facTree kn.2) xs = .ok rs := hm
          have hf2 := mapExcept_ok_iff.mp hm2
          have hout2 : lookupKey k out = some (Value.list rs) := hkn1 ▸ hout
          rw [hout2] at hvd
          have hvd2 : v = Value.arr (rs.map toJS) := by
            rw [hvd, show ((some (Value.list rs)).getD d) = Value.list rs from rfl]
            show toJS (Value.list rs) = _
            have : toJS (Value.list rs) = Value.arr (toJSList rs) := rfl
            rw [this, toJSList_eq_map]
          subst hvd2
          refine DeepEq.arr ?_ ?_
          · rw [List.length_map]
            exact hf2.length_eq.symm
          · intro i hi1 hi2
            have hi3 : i < rs.length := by
              rw [List.length_map] at hi1
              exact hi1
            have hmem : xs[i] ∈ xs := List.getElem_mem _
            rcases ih2 kn hknD xs (hkn1 ▸ hw) xs[i] hmem with ⟨re, hre, hdeep⟩
            have hfi : fromJS xs[i] facTree kn.2 = .ok rs[i] :=
              forall₂_get hf2 i hi2 hi3
            rw [hre] at hfi
            injection hfi with hfi
            rw [List.getElem_map]
            rw [← hfi]
            exact hdeep
        · -- nested object
          rcases hcase with ⟨G, hG⟩ | ⟨xs, hxs, _⟩
          · subst hG
            rcases ih1 kn hknD G (hkn1 ▸ hw) with ⟨re, hre, hdeep⟩
            have hr02 : fromJS (Value.obj G) facTree kn.2 = .ok r0 := hr0
            rw [hre] at hr02
            injection hr02 with hr02
            have hout2 : lookupKey k out = some r0 := hkn1 ▸ hout
            rw [hout2] at hvd
            have hvd2 : v = toJS r0 := hvd
            rw [hvd2, ← hr02]
            exact hdeep
          · subst hxs
            simp [isArray] at hisarr
        · -- untouched: impossible, the field's shape is object or array
          rcases hcase with ⟨G, hG⟩ | ⟨xs, hxs, _⟩
          · subst hG
            simp [typeofObject] at hto
          · subst hxs
            simp [isArray] at hisarr
      · -- not a descriptor field: passed through untouched, a scalar
        have hfr : lookupKey k out = lookupKey k F :=
          convertFields_ok_frame hconv hkD
        rw [hfr, hw] at hvd
        have hsc : scalar w = true := by
          have hmem := lookupKey_mem hw
          exact hscal (k, w) hmem hkD
        rcases scalar_toJS_deepEq hsc with ⟨hto, hde⟩
        have hvd2 : v = toJS w := hvd
        rw [hvd2, hto]
        exact hde

/-- C4 witness, at the spec's worked example: person template
{name: '', pets: []} with descriptor {pets: 'pet'}, pet template
{name: '', type: ''}, input {name: 'Ann', pets: [{name: 'Rex',
type: 'dog'}]}. -/
theorem fromJS_toJS_roundtrip_witness :
    ∃ r, fromJS (.obj [("name", .str "Ann"),
                       ("pets", .arr [.obj [("name", .str "Rex"), ("type", .str "dog")]])])
        [("person", FactoryEntry.mk (some [("pets", "pet")])
            (some [("name", Value.str ""), ("pets", Value.arr [])])),
         ("pet", FactoryEntry.mk none
            (some [("name", Value.str ""), ("type", Value.str "")]))] "person" =
      .ok r ∧
    DeepEq (toJS r)
      (.obj [("name", .str "Ann"),
             ("pets", .arr [.obj [("name", .str "Rex"), ("type", .str "dog")]])]) := by
  apply fromJS_toJS_roundtrip
  have hpet : Matches
      [("person", FactoryEntry.mk (some [("pets", "pet")])
          (some [("name", Value.str ""), ("pets", Value.arr [])])),
       ("pet", FactoryEntry.mk none
          (some [("name", Value.str ""), ("type", Value.str "")]))]
      "pet" (.obj [("name", Value.str "Rex"), ("type", Value.str "dog")]) := by
    refine Matches.mk "pet" _
      (FactoryEntry.mk none (some [("name", Value.str ""), ("type", Value.str "")]))
      [("name", Value.str ""), ("type", Value.str "")] []
      rfl rfl rfl (by decide) (by decide) (by decide) (by decide) (by decide)
      (by decide) ?_ ?_
    · intro kn hkn
      exact absurd hkn (List.not_mem_nil kn)
    · intro kn hkn
      exact absurd hkn (List.not_mem_nil kn)
  refine Matches.mk "person" _
    (FactoryEntry.mk (some [("pets", "pet")])
      (some [("name", Value.str ""), ("pets", Value.arr [])]))
    [("name", Value.str ""), ("pets", Value.arr [])] [("pets", "pet")]
    rfl rfl rfl (by decide) (by decide) (by decide) (by decide) (by decide)
    (by decide) ?_ ?_
  · intro kn hkn G hG
    rw [List.mem_singleton] at hkn
    subst hkn
    have hG2 : some (Value.arr [Value.obj [("name", Value.str "Rex"),
        ("type", Value.str "dog")]]) = some (Value.obj G) := hG
    injection hG2 with hG2
    exact Value.noConfusion hG2
  · intro kn hkn xs hxs e he
    rw [List.mem_singleton] at hkn
    subst hkn
    have hxs2 : some (Value.arr [Value.obj [("name", Value.str "Rex"),
        ("type", Value.str "dog")]]) = some (Value.arr xs) := hxs
    injection hxs2 with hxs2
    injection hxs2 with hxs2
    subst hxs2
    rw [List.mem_singleton] at he
    subst he
    exact hpet

-- ==========================================================================
-- Heap-preservation lemmas and the mutation claim (C7).
-- ==========================================================================

theorem freshAddr_lookup (h : Heap) : lookupKey (freshAddr h) h = none := by
  have hgen : ∀ a, (h.map Prod.fst).foldr (fun a m => max a m) 0 < a →
      lookupKey a h = none := by
    induction h with
    | nil =>
      intro a _
      rfl
    | cons p rest ih =>
      intro a ha
      simp only [List.map_cons, List.foldr_cons] at ha
      rw [Nat.max_lt] at ha
      simp only [lookupKey, if_neg (Nat.ne_of_lt ha.1)]
      exact ih a ha.2
  exact hgen _ (Nat.lt_succ_self _)

theorem heapSet_lookup_other {h : Heap} {a pa : Nat} {k : String} {v : HVal}
    (hne : a ≠ pa) : lookupKey a (heapSet h pa k v) = lookupKey a h := by
  induction h with
  | nil => rfl
  | cons p rest ih =>
    rcases p with ⟨b, o⟩
    by_cases hb : b = pa
    · subst hb
      have hba : b ≠ a := fun he => hne he.symm
      simp [heapSet, lookupKey, hba]
    · simp [heapSet, hb, lookupKey, ih]

theorem heapPreserves_refl {h : Heap} : HeapPreserves h h := fun _ _ ha => ha

theorem heapPreserves_trans {h1 h2 h3 : Heap}
    (p1 : HeapPreserves h1 h2) (p2 : HeapPreserves h2 h3) : HeapPreserves h1 h3 :=
  fun a o ha => p2 a o (p1 a o ha)

theorem heapPreservesExc_refl {pa : Nat} {h : Heap} : HeapPreservesExc pa h h :=
  fun _ _ _ ha => ha

theorem heapPreservesExc_trans {pa : Nat} {h1 h2 h3 : Heap}
    (p1 : HeapPreservesExc pa h1 h2) (p2 : HeapPreservesExc pa h2 h3) :
    HeapPreservesExc pa h1 h3 :=
  fun a o hne ha => p2 a o hne (p1 a o hne ha)

theorem heapPreserves_toExc {pa : Nat} {h1 h2 : Heap} (p : HeapPreserves h1 h2) :
    HeapPreservesExc pa h1 h2 :=
  fun a o _ ha => p a o ha

theorem heapPreservesExc_heapSet {pa : Nat} {h : Heap} {k : String} {v : HVal} :
    HeapPreservesExc pa h (heapSet h pa k v) :=
  fun a _ hne ha => by
    rw [heapSet_lookup_other hne]
    exact ha

theorem convertArrH_preserves {recf : Heap → HVal → String → Heap × Except JsError HVal}
    (hrec : ∀ h v n, HeapPreserves h (recf h v n).1) :
    ∀ (xs : List HVal) (h : Heap) (n : String),
      HeapPreserves h (convertArrH recf h n xs).1 := by
  intro xs
  induction xs with
  | nil =>
    intro h n
    exact heapPreserves_refl
  | cons x rest ih =>
    intro h n
    rcases hr : recf h x n with ⟨h1, er⟩
    have hp1 : HeapPreserves h h1 := by
      have := hrec h x n
      rw [hr] at this
      exact this
    cases er with
    | error e =>
      simp only [convertArrH, hr]
      exact hp1
    | ok r =>
      rcases hm : convertArrH recf h1 n rest with ⟨h2, er2⟩
      have hp2 : HeapPreserves h1 h2 := by
        have := ih h1 n
        rw [hm] at this
        exact this
      cases er2 with
      | error e =>
        simp only [convertArrH, hr, hm]
        exact heapPreserves_trans hp1 hp2
      | ok rs =>
        simp only [convertArrH, hr, hm]
        exact heapPreserves_trans hp1 hp2

theorem convertFieldsH_preservesExc
    {recf : Heap → HVal → String → Heap × Except JsError HVal}
    (hrec : ∀ h v n, HeapPreserves h (recf h v n).1) (objv : HVal) (pa : Nat) :
    ∀ (desc : List (String × String)) (h : Heap),
      HeapPreservesExc pa h (convertFieldsH recf objv pa desc h).1 := by
  intro desc
  induction desc with
  | nil =>
    intro h
    exact heapPreservesExc_refl
  | cons kn rest ih =>
    intro h
    rcases hg : getPropH h objv kn.1 with e | v
    · simp only [convertFieldsH, hg]
      exact heapPreservesExc_refl
    · by_cases hia : isArrayH h v = true
      · cases v with
        | null => simp [isArrayH] at hia
        | undefined => simp [isArrayH] at hia
        | bool b => simp [isArrayH] at hia
        | num n => simp [isArrayH] at hia
        | str s => simp [isArrayH] at hia
        | record fs => simp [isArrayH] at hia
        | ilist xs0 => simp [isArrayH] at hia
        | ref a =>
          rcases hla : lookupKey a h with _ | o
          · simp [isArrayH, hla] at hia
          · rcases o with fs | xs
            · simp [isArrayH, hla] at hia
            · rcases hm : convertArrH recf h kn.2 xs with ⟨h1, er⟩
              have hp1 : HeapPreserves h h1 := by
                have := convertArrH_preserves hrec xs h kn.2
                rw [hm] at this
                exact this
              cases er with
              | error e =>
                simp only [convertFieldsH, hg, hia, if_true, hla, hm]
                exact heapPreserves_toExc hp1
              | ok rs =>
                simp only [convertFieldsH, hg, hia, if_true, hla, hm]
                exact heapPreservesExc_trans
                  (heapPreservesExc_trans (heapPreserves_toExc hp1)
                    heapPreservesExc_heapSet)
                  (ih (heapSet h1 pa kn.1 (.ilist rs)))
      · by_cases hto : typeofObjectH v = true
        · rcases hr : recf h v kn.2 with ⟨h1, er⟩
          have hp1 : HeapPreserves h h1 := by
            have := hrec h v kn.2
            rw [hr] at this
            exact this
          cases er with
          | error e =>
            simp only [convertFieldsH, hg, hia, if_false, hto, if_true, hr]
            exact heapPreserves_toExc hp1
          | ok r =>
            simp only [convertFieldsH, hg, hia, if_false, hto, if_true, hr]
            exact heapPreservesExc_trans
              (heapPreservesExc_trans (heapPreserves_toExc hp1)
                heapPreservesExc_heapSet)
              (ih (heapSet h1 pa kn.1 r))
        · simp only [convertFieldsH, hg, hia, if_false, hto]
          exact ih h

theorem fromJSH_preserves :
    ∀ (fuel : Nat) (h : Heap) (objv : HVal) (facTree : HTree) (facName : String),
      HeapPreserves h (fromJSH fuel h objv facTree facName).1 := by
  intro fuel
  induction fuel with
  | zero =>
    intro h objv facTree facName
    exact heapPreserves_refl
  | succ fuel ih =>
    intro h objv facTree facName
    have halloc : HeapPreserves h ((freshAddr h, HObj.hobj (ownFieldsH h objv)) :: h) := by
      intro a o ha
      have hne : freshAddr h ≠ a := by
        intro he
        rw [← he, freshAddr_lookup] at ha
        cases ha
      simp only [lookupKey, if_neg hne]
      exact ha
    rcases hl : lookupKey facName facTree with _ | entry
    · simp only [fromJSH, hl]
      exact heapPreserves_refl
    · rcases hf : entry.factory with _ | template
      · simp only [fromJSH, hl, hf]
        exact heapPreserves_refl
      · rcases hd : entry.descriptor with _ | desc
        · simp only [fromJSH, hl, hf, hd]
          exact halloc
        · rcases hc : convertFieldsH (fun h2 v n => fromJSH fuel h2 v facTree n) objv
              (freshAddr h) desc ((freshAddr h, HObj.hobj (ownFieldsH h objv)) :: h)
            with ⟨h2, er⟩
          have hexc : HeapPreservesExc (freshAddr h)
              ((freshAddr h, HObj.hobj (ownFieldsH h objv)) :: h) h2 := by
            have := convertFieldsH_preservesExc (fun hh v n => ih hh v facTree n)
              objv (freshAddr h) desc ((freshAddr h, HObj.hobj (ownFieldsH h objv)) :: h)
            rw [hc] at this
            exact this
          have hmain : ∀ a o, lookupKey a h = some o → lookupKey a h2 = some o := by
            intro a o ha
            have hne : a ≠ freshAddr h := by
              intro he
              rw [he, freshAddr_lookup] at ha
              cases ha
            exact hexc a o hne (halloc a o ha)
          cases er with
          | error e =>
            simp only [fromJSH, hl, hf, hd, hc]
            exact hmain
          | ok u =>
            simp only [fromJSH, hl, hf, hd, hc]
            exact hmain

/-- C7: `fromJS` never mutates its input.  In the heap-instrumented model
every heap cell that exists before the call — the input object, all of its
nested objects and arrays at every level, and anything else alive — holds
exactly the same contents when the call returns, whether it returns a
record or fails: the shallow working copy of line 137 is a freshly
allocated cell and lines 143/147 write only into such fresh cells, so the
input graph is untouched (hence deep-equal to its original value). -/
theorem fromJS_never_mutates_input (fuel : Nat) (h : Heap) (objv : HVal)
    (facTree : HTree) (facName : String) (a : Nat) (o : HObj)
    (hlook : lookupKey a h = some o) :
    lookupKey a (fromJSH fuel h objv facTree facName).1 = some o :=
  fromJSH_preserves fuel h objv facTree facName a o hlook

/-- C7 witness: a two-cell input graph (a person object referencing a pet
object) converted with a descriptor that recurses into the pet; both input
cells are unchanged in the final heap. -/
theorem fromJS_never_mutates_input_witness :
    lookupKey 1 (fromJSH 3
        [(0, HObj.hobj [("name", HVal.str "Ann"), ("pet", HVal.ref 1)]),
         (1, HObj.hobj [("name", HVal.str "Rex")])]
        (HVal.ref 0)
        [("person", HFactoryEntry.mk (some [("pet", "pet")])
            (some [("name", HVal.str ""), ("pet", HVal.null)])),
         ("pet", HFactoryEntry.mk none (some [("name", HVal.str "")]))]
        "person").1 =
      some (HObj.hobj [("name", HVal.str "Rex")]) :=
  fromJS_never_mutates_input 3
    [(0, HObj.hobj [("name", HVal.str "Ann"), ("pet", HVal.ref 1)]),
     (1, HObj.hobj [("name", HVal.str "Rex")])]
    (HVal.ref 0)
    [("person", HFactoryEntry.mk (some [("pet", "pet")])
        (some [("name", HVal.str ""), ("pet", HVal.null)])),
     ("pet", HFactoryEntry.mk none (some [("name", HVal.str "")]))]
    "person" 1 (HObj.hobj [("name", HVal.str "Rex")]) rfl
